import Mathlib

/-!
Verification of the chat-completion request/response handling layer of the
Travel-Recommender application (src/app.py): the JSON array extractor, the
SSE streaming loop, the structured-query parse paths, and the conversational
session history updates.  Texts are modelled as lists of characters; the
external JSON decoder (Python json.loads) and the HTTP completion client are
modelled as abstract parameters, since they are library collaborators rather
than code of this repository.
-/

namespace TravelSpec

/-- Bracket contribution of one character to the depth counter of
extract_json_array (src/app.py lines 50-57). -/
def chDelta (c : Char) : Int :=
  if c = '[' then 1 else if c = ']' then -1 else 0

/-- Total bracket-depth change over a character list. -/
def delta : List Char → Int
  | [] => 0
  | c :: l => chDelta c + delta l

/-- Model of Python text.find("[") followed by slicing text[start:]
(src/app.py line 47): the suffix of the input starting at the first
opening bracket, if any. -/
def findBracket : List Char → Option (List Char)
  | [] => none
  | c :: l => if c = '[' then some (c :: l) else findBracket l

/-- The two failure modes of extract_json_array (src/app.py lines 48-49
and 59): no opening bracket found, or no matching closing bracket. -/
inductive ExtractErr where
  | noOpeningBracket : ExtractErr
  | noMatchingClose : ExtractErr
deriving DecidableEq

/-- Model of the scanning loop of extract_json_array (src/app.py lines
50-58): walk the characters keeping a depth counter, incremented at each
opening bracket and decremented at each closing bracket; when the counter
reaches zero at a closing bracket, return the characters consumed so far,
inclusive; if the list ends first, fail. -/
def bracketScan : List Char → Int → Option (List Char)
  | [], _ => none
  | c :: l, depth =>
    if c = '[' then (bracketScan l (depth + 1)).map (fun out => c :: out)
    else if c = ']' then
      if depth - 1 = 0 then some [c]
      else (bracketScan l (depth - 1)).map (fun out => c :: out)
    else (bracketScan l depth).map (fun out => c :: out)

/-- Model of extract_json_array (src/app.py lines 43-59): find the first
opening bracket, then scan with the depth counter starting at zero; return
the substring from the first opening bracket to the first closing bracket
at which the counter returns to zero, or the corresponding error. -/
def extract_json_array (s : List Char) : Except ExtractErr (List Char) :=
  match findBracket s with
  | none => .error .noOpeningBracket
  | some suffix =>
    match bracketScan suffix 0 with
    | none => .error .noMatchingClose
    | some out => .ok out

theorem delta_append (a b : List Char) : delta (a ++ b) = delta a + delta b := by
  induction a with
  | nil => simp [delta]
  | cons c l ih => simp [delta, ih]; ring

theorem delta_take_succ (c : Char) (l : List Char) (n : Nat) :
    delta ((c :: l).take (n + 1)) = chDelta c + delta (l.take n) := rfl

theorem bracketScan_eq_take (l : List Char) (d : Int) (n : Nat)
    (hd : 1 ≤ d) (hn : 0 < n) (hlen : n ≤ l.length)
    (hz : d + delta (l.take n) = 0)
    (hmin : ∀ m, m < n → 0 < m → d + delta (l.take m) ≠ 0) :
    bracketScan l d = some (l.take n) := by
  induction l generalizing d n with
  | nil => simp at hlen; omega
  | cons c l ih =>
    by_cases hc : c = '['
    · subst hc
      have hn2 : 2 ≤ n := by
        by_contra hne
        have hn1 : n = 1 := by omega
        subst hn1
        rw [show (1 : Nat) = 0 + 1 from rfl, delta_take_succ] at hz
        simp [delta, chDelta] at hz
        omega
      obtain ⟨n', rfl⟩ : ∃ n', n = n' + 1 := ⟨n - 1, by omega⟩
      have hz' : (d + 1) + delta (l.take n') = 0 := by
        rw [delta_take_succ] at hz
        simp [chDelta] at hz; omega
      have hmin' : ∀ m, m < n' → 0 < m → (d + 1) + delta (l.take m) ≠ 0 := by
        intro m hm hm0
        have := hmin (m + 1) (by omega) (by omega)
        rw [delta_take_succ] at this
        simp [chDelta] at this; omega
      have hres := ih (d + 1) n' (by omega) (by omega) (by simpa using hlen) hz' hmin'
      simp [bracketScan, hres]
    · by_cases hc2 : c = ']'
      · subst hc2
        by_cases hd1 : d = 1
        · subst hd1
          have hn1 : n = 1 := by
            by_contra hne
            have h2 : 2 ≤ n := by omega
            have := hmin 1 (by omega) (by omega)
            rw [show (1 : Nat) = 0 + 1 from rfl, delta_take_succ] at this
            simp [delta, chDelta] at this
          subst hn1
          simp [bracketScan, hc, List.take_succ_cons, List.take_zero]
        · have hd2 : 2 ≤ d := by omega
          have hn2 : 2 ≤ n := by
            by_contra hne
            have hn1 : n = 1 := by omega
            subst hn1
            rw [show (1 : Nat) = 0 + 1 from rfl, delta_take_succ] at hz
            simp [delta, chDelta] at hz
            omega
          obtain ⟨n', rfl⟩ : ∃ n', n = n' + 1 := ⟨n - 1, by omega⟩
          have hz' : (d - 1) + delta (l.take n') = 0 := by
            rw [delta_take_succ] at hz
            simp [chDelta] at hz; omega
          have hmin' : ∀ m, m < n' → 0 < m → (d - 1) + delta (l.take m) ≠ 0 := by
            intro m hm hm0
            have := hmin (m + 1) (by omega) (by omega)
            rw [delta_take_succ] at this
            simp [chDelta] at this; omega
          have hres := ih (d - 1) n' (by omega) (by omega) (by simpa using hlen) hz' hmin'
          have hne : ¬(d - 1 = 0) := by omega
          simp [bracketScan, hc, hne, hres]
      · have hn2 : 2 ≤ n := by
          by_contra hne
          have hn1 : n = 1 := by omega
          subst hn1
          rw [show (1 : Nat) = 0 + 1 from rfl, delta_take_succ] at hz
          simp [delta, chDelta, hc, hc2] at hz
          omega
        obtain ⟨n', rfl⟩ : ∃ n', n = n' + 1 := ⟨n - 1, by omega⟩
        have hz' : d + delta (l.take n') = 0 := by
          rw [delta_take_succ] at hz
          simp [chDelta, hc, hc2] at hz; omega
        have hmin' : ∀ m, m < n' → 0 < m → d + delta (l.take m) ≠ 0 := by
          intro m hm hm0
          have := hmin (m + 1) (by omega) (by omega)
          rw [delta_take_succ] at this
          simp [chDelta, hc, hc2] at this; omega
        have hres := ih d n' hd (by omega) (by simpa using hlen) hz' hmin'
        simp [bracketScan, hc, hc2, hres]

theorem bracketScan_none_iff (l : List Char) (d : Int) (hd : 1 ≤ d) :
    bracketScan l d = none ↔ ∀ n, n ≤ l.length → 0 < n → d + delta (l.take n) ≠ 0 := by
  induction l generalizing d with
  | nil =>
    simp only [bracketScan, List.length_nil]
    constructor
    · intro _ n hn h0
      omega
    · intro _
      trivial
  | cons c l ih =>
    by_cases hc : c = '['
    · subst hc
      have step : bracketScan ('[' :: l) d = (bracketScan l (d + 1)).map (fun out => '[' :: out) := by
        simp [bracketScan]
      rw [step]
      constructor
      · intro h n hn h0
        have hnone : bracketScan l (d + 1) = none := by
          cases hsc : bracketScan l (d + 1) with
          | none => rfl
          | some out => rw [hsc] at h; simp at h
        have hall := (ih (d + 1) (by omega)).mp hnone
        obtain ⟨n', rfl⟩ : ∃ n', n = n' + 1 := ⟨n - 1, by omega⟩
        rw [delta_take_succ]
        simp [chDelta]
        by_cases hn' : 0 < n'
        · have := hall n' (by simpa using hn) hn'
          omega
        · have : n' = 0 := by omega
          subst this
          simp [delta]
          omega
      · intro h
        have hall : ∀ n, n ≤ l.length → 0 < n → (d + 1) + delta (l.take n) ≠ 0 := by
          intro n hn h0
          have := h (n + 1) (by simpa using Nat.succ_le_succ hn) (by omega)
          rw [delta_take_succ] at this
          simp [chDelta] at this
          omega
        have := (ih (d + 1) (by omega)).mpr hall
        simp [this]
    · by_cases hc2 : c = ']'
      · subst hc2
        by_cases hd1 : d = 1
        · subst hd1
          constructor
          · intro h
            simp [bracketScan, hc] at h
          · intro h
            exfalso
            have := h 1 (by simp) (by omega)
            rw [show (1 : Nat) = 0 + 1 from rfl, delta_take_succ] at this
            simp [delta, chDelta] at this

        · have hd2 : 2 ≤ d := by omega
          have hne : ¬(d - 1 = 0) := by omega
          have step : bracketScan (']' :: l) d = (bracketScan l (d - 1)).map (fun out => ']' :: out) := by
            simp [bracketScan, hc, hne]
          rw [step]
          constructor
          · intro h n hn h0
            have hnone : bracketScan l (d - 1) = none := by
              cases hsc : bracketScan l (d - 1) with
              | none => rfl
              | some out => rw [hsc] at h; simp at h
            have hall := (ih (d - 1) (by omega)).mp hnone
            obtain ⟨n', rfl⟩ : ∃ n', n = n' + 1 := ⟨n - 1, by omega⟩
            rw [delta_take_succ]
            simp [chDelta]
            by_cases hn' : 0 < n'
            · have := hall n' (by simpa using hn) hn'
              omega
            · have : n' = 0 := by omega
              subst this
              simp [delta]
              omega
          · intro h
            have hall : ∀ n, n ≤ l.length → 0 < n → (d - 1) + delta (l.take n) ≠ 0 := by
              intro n hn h0
              have := h (n + 1) (by simpa using Nat.succ_le_succ hn) (by omega)
              rw [delta_take_succ] at this
              simp [chDelta] at this
              omega
            have := (ih (d - 1) (by omega)).mpr hall
            simp [this]
      · have step : bracketScan (c :: l) d = (bracketScan l d).map (fun out => c :: out) := by
          simp [bracketScan, hc, hc2]
        rw [step]
        constructor
        · intro h n hn h0
          have hnone : bracketScan l d = none := by
            cases hsc : bracketScan l d with
            | none => rfl
            | some out => rw [hsc] at h; simp at h
          have hall := (ih d hd).mp hnone
          obtain ⟨n', rfl⟩ : ∃ n', n = n' + 1 := ⟨n - 1, by omega⟩
          rw [delta_take_succ]
          simp [chDelta, hc, hc2]
          by_cases hn' : 0 < n'
          · have := hall n' (by simpa using hn) hn'
            omega
          · have : n' = 0 := by omega
            subst this
            simp [delta]
            omega
        · intro h
          have hall : ∀ n, n ≤ l.length → 0 < n → d + delta (l.take n) ≠ 0 := by
            intro n hn h0
            have := h (n + 1) (by simpa using Nat.succ_le_succ hn) (by omega)
            rw [delta_take_succ] at this
            simp [chDelta, hc, hc2] at this
            omega
          have := (ih d hd).mpr hall
          simp [this]

theorem findBracket_none_iff (l : List Char) : findBracket l = none ↔ '[' ∉ l := by
  induction l with
  | nil => simp [findBracket]
  | cons c l ih =>
    by_cases hc : c = '['
    · subst hc; simp [findBracket]
    · simp [findBracket, hc, ih, Ne.symm hc]

theorem findBracket_append (pre rest : List Char) (h : '[' ∉ pre) :
    findBracket (pre ++ '[' :: rest) = some ('[' :: rest) := by
  induction pre with
  | nil => simp [findBracket]
  | cons c l ih =>
    have hc : c ≠ '[' := by intro hc; exact h (by simp [hc])
    simp [findBracket, hc]
    exact ih (by intro hm; exact h (by simp [hm]))

theorem findBracket_shape (l suffix : List Char) (h : findBracket l = some suffix) :
    ∃ pre rest, suffix = '[' :: rest ∧ l = pre ++ suffix ∧ '[' ∉ pre := by
  induction l with
  | nil => simp [findBracket] at h
  | cons c l ih =>
    by_cases hc : c = '['
    · subst hc
      simp [findBracket] at h
      exact ⟨[], l, by simp [h.symm], by simp [h.symm], by simp⟩
    · simp [findBracket, hc] at h
      obtain ⟨pre, rest, h1, h2, h3⟩ := ih h
      refine ⟨c :: pre, rest, h1, by simp [h2], ?_⟩
      intro hm
      rcases List.mem_cons.mp hm with hm1 | hm2
      · exact hc hm1.symm
      · exact h3 hm2

theorem bracketScan_open_none_iff (rest : List Char) :
    bracketScan ('[' :: rest) 0 = none ↔
      ∀ n, n ≤ ('[' :: rest).length → 0 < n → delta (('[' :: rest).take n) ≠ 0 := by
  have hstep : bracketScan ('[' :: rest) 0 = (bracketScan rest 1).map (fun out => '[' :: out) := by
    simp [bracketScan]
  rw [hstep]
  constructor
  · intro h n hn h0
    have hnone : bracketScan rest 1 = none := by
      cases hsc : bracketScan rest 1 with
      | none => rfl
      | some out => rw [hsc] at h; simp at h
    have hall := (bracketScan_none_iff rest 1 (by omega)).mp hnone
    obtain ⟨n', rfl⟩ : ∃ n', n = n' + 1 := ⟨n - 1, by omega⟩
    rw [delta_take_succ]
    have hcd : chDelta '[' = 1 := rfl
    rw [hcd]
    by_cases hn' : 0 < n'
    · have := hall n' (by simpa using hn) hn'
      omega
    · have hne : n' = 0 := by omega
      subst hne
      rw [List.take_zero]
      simp only [delta]
      omega
  · intro h
    have hall : ∀ n, n ≤ rest.length → 0 < n → (1 : Int) + delta (rest.take n) ≠ 0 := by
      intro n hn h0
      have := h (n + 1) (by simpa using Nat.succ_le_succ hn) (by omega)
      rw [delta_take_succ] at this
      simp [chDelta] at this
      omega
    have := (bracketScan_none_iff rest 1 (by omega)).mpr hall
    simp [this]

/-- Claim C1: on an input decomposing as a bracket-free prefix followed by the
first opening bracket, if the bracket-depth counter started at that opening
bracket first returns to zero after exactly n characters, then
extract_json_array returns exactly the substring running from the first
opening bracket through that position, inclusive. -/
theorem extract_json_array_first_balanced (pre rest : List Char) (n : Nat)
    (hpre : '[' ∉ pre) (hn : 0 < n) (hlen : n ≤ ('[' :: rest).length)
    (hz : delta (('[' :: rest).take n) = 0)
    (hmin : ∀ m, m < n → 0 < m → delta (('[' :: rest).take m) ≠ 0) :
    extract_json_array (pre ++ '[' :: rest) = Except.ok (('[' :: rest).take n) := by
  have hfind := findBracket_append pre rest hpre
  have hn2 : 2 ≤ n := by
    by_contra hne
    have hn1 : n = 1 := by omega
    subst hn1
    rw [show (1 : Nat) = 0 + 1 from rfl, delta_take_succ] at hz
    simp [delta, chDelta] at hz
  obtain ⟨n', rfl⟩ : ∃ n', n = n' + 1 := ⟨n - 1, by omega⟩
  have hz' : (1 : Int) + delta (rest.take n') = 0 := by
    rw [delta_take_succ] at hz
    simp [chDelta] at hz
    omega
  have hmin' : ∀ m, m < n' → 0 < m → (1 : Int) + delta (rest.take m) ≠ 0 := by
    intro m hm hm0
    have := hmin (m + 1) (by omega) (by omega)
    rw [delta_take_succ] at this
    simp [chDelta] at this
    omega
  have hscan := bracketScan_eq_take rest 1 n' (by omega) (by omega) (by simpa using hlen) hz' hmin'
  unfold extract_json_array
  rw [hfind]
  simp [bracketScan, hscan, List.take_succ_cons]

/-- Witness for Claim C1 at a concrete noisy input. -/
theorem extract_json_array_first_balanced_witness :
    extract_json_array ['x', '[', 'a', 'b', ']', 'y'] = Except.ok ['[', 'a', 'b', ']'] := by
  have h := extract_json_array_first_balanced ['x'] ['a', 'b', ']', 'y'] 4
    (by decide) (by decide) (by decide) (by decide) (by decide)
  simpa using h

/-- There is an opening bracket somewhere in the input. -/
def hasOpen (s : List Char) : Prop := '[' ∈ s

/-- Starting at the first opening bracket, the bracket-depth counter returns
to zero at some position within the input. -/
def returnsToZero (s : List Char) : Prop :=
  ∃ pre rest n, s = pre ++ '[' :: rest ∧ '[' ∉ pre ∧ 0 < n ∧
    n ≤ ('[' :: rest).length ∧ delta (('[' :: rest).take n) = 0

/-- Claim C3: extract_json_array fails with the no-opening-bracket error
exactly when the input has no opening bracket, fails with the
no-matching-closing-bracket error exactly when it has an opening bracket but
the depth counter never returns to zero after the first opening bracket, and
succeeds on every other input. -/
theorem extract_json_array_failure_characterization (s : List Char) :
    (extract_json_array s = .error .noOpeningBracket ↔ ¬ hasOpen s)
    ∧ (extract_json_array s = .error .noMatchingClose ↔ (hasOpen s ∧ ¬ returnsToZero s))
    ∧ ((∃ out, extract_json_array s = .ok out) ↔ (hasOpen s ∧ returnsToZero s)) := by
  cases hf : findBracket s with
  | none =>
    have hno : '[' ∉ s := (findBracket_none_iff s).mp hf
    have he : extract_json_array s = .error .noOpeningBracket := by
      unfold extract_json_array
      rw [hf]
    refine ⟨?_, ?_, ?_⟩
    · simp [he, hasOpen, hno]
    · constructor
      · intro h
        rw [he] at h
        simp at h
      · intro h
        exact absurd h.1 hno
    · constructor
      · intro h
        obtain ⟨out, h⟩ := h
        rw [he] at h
        simp at h
      · intro h
        exact absurd h.1 hno
  | some suffix =>
    obtain ⟨pre, rest, hsfx, hs, hpre⟩ := findBracket_shape s suffix hf
    subst hsfx
    have hopen : hasOpen s := by
      rw [hs]
      simp [hasOpen]
    have hr : returnsToZero s ↔
        ∃ n, 0 < n ∧ n ≤ ('[' :: rest).length ∧ delta (('[' :: rest).take n) = 0 := by
      constructor
      · rintro ⟨pre2, rest2, n, hseq, hpre2, hn, hlen, hz⟩
        have hf2 : findBracket s = some ('[' :: rest2) := by
          rw [hseq]
          exact findBracket_append pre2 rest2 hpre2
        rw [hf] at hf2
        have h4 : '[' :: rest = '[' :: rest2 := by injection hf2
        have h5 : rest = rest2 := by injection h4
        subst h5
        exact ⟨n, hn, hlen, hz⟩
      · rintro ⟨n, hn, hlen, hz⟩
        exact ⟨pre, rest, n, hs, hpre, hn, hlen, hz⟩
    cases hb : bracketScan ('[' :: rest) 0 with
    | none =>
      have he : extract_json_array s = .error .noMatchingClose := by
        simp [extract_json_array, hf, hb]
      have hnr : ¬ returnsToZero s := by
        rw [hr]
        rintro ⟨n, hn, hlen, hz⟩
        exact (bracketScan_open_none_iff rest).mp hb n hlen hn hz
      refine ⟨?_, ?_, ?_⟩
      · simp [he, hopen]
      · simp [he, hopen, hnr]
      · simp [he, hopen, hnr]
    | some out =>
      have he : extract_json_array s = .ok out := by
        simp [extract_json_array, hf, hb]
      have hrz : returnsToZero s := by
        rw [hr]
        by_contra hnex
        push_neg at hnex
        have hnone : bracketScan ('[' :: rest) 0 = none :=
          (bracketScan_open_none_iff rest).mpr (fun n hn h0 => hnex n h0 hn)
        rw [hb] at hnone
        simp at hnone
      refine ⟨?_, ?_, ?_⟩
      · simp [he, hopen]
      · simp [he, hopen, hrz]
      · simp [he, hopen, hrz]

mutual
/-- JSON values, as produced by the model and decoded by the application.
Arrays and objects use bespoke list types so that mutual recursion and
induction over the structure stay elementary. -/
inductive Json where
  | null : Json
  | bool (b : Bool) : Json
  | num (n : Int) : Json
  | str (s : String) : Json
  | arr (xs : JsonList) : Json
  | obj (fs : JsonFields) : Json
/-- A list of JSON values (the elements of a JSON array). -/
inductive JsonList where
  | nil : JsonList
  | cons (hd : Json) (tl : JsonList) : JsonList
/-- A list of key-value pairs (the fields of a JSON object). -/
inductive JsonFields where
  | nil : JsonFields
  | cons (key : String) (val : Json) (tl : JsonFields) : JsonFields
end

/-- One decimal digit as a character. -/
def digitChar (n : Nat) : Char :=
  if n = 0 then '0' else if n = 1 then '1' else if n = 2 then '2'
  else if n = 3 then '3' else if n = 4 then '4' else if n = 5 then '5'
  else if n = 6 then '6' else if n = 7 then '7' else if n = 8 then '8' else '9'

/-- Decimal digits of a natural number, most significant first. -/
def natDigits (n : Nat) : List Char :=
  if n < 10 then [digitChar n]
  else natDigits (n / 10) ++ [digitChar (n % 10)]
decreasing_by exact Nat.div_lt_self (by omega) (by omega)

/-- Decimal rendering of an integer. -/
def intChars (n : Int) : List Char :=
  if n < 0 then '-' :: natDigits n.natAbs else natDigits n.natAbs

/-- JSON string escaping of one character: quote and backslash get a
backslash escape, everything else is passed through. -/
def escapeChar (c : Char) : List Char :=
  if c = '"' then ['\\', '"'] else if c = '\\' then ['\\', '\\'] else [c]

/-- JSON string escaping of a character list. -/
def escapeList : List Char → List Char
  | [] => []
  | c :: l => escapeChar c ++ escapeList l

/-- Serialization of a JSON string literal: quotes around the escaped
content. -/
def serializeStr (s : String) : List Char :=
  '"' :: (escapeList s.data ++ ['"'])

/-- Opening curly brace character. -/
def lbrace : Char := Char.ofNat 123

/-- Closing curly brace character. -/
def rbrace : Char := Char.ofNat 125

mutual
/-- Modelled from the spec: serialization of a JSON value to text, as in the
round-trip property of the spec (the source never serializes; this renders
values the way a standard JSON encoder such as Python json.dumps does). -/
def serializeJson : Json → List Char
  | .null => "null".data
  | .bool true => "true".data
  | .bool false => "false".data
  | .num n => intChars n
  | .str s => serializeStr s
  | .arr xs => '[' :: (serializeList xs ++ [']'])
  | .obj fs => lbrace :: (serializeFields fs ++ [rbrace])
/-- Comma-separated serialization of JSON array elements. -/
def serializeList : JsonList → List Char
  | .nil => []
  | .cons j .nil => serializeJson j
  | .cons j (.cons k tl) => serializeJson j ++ (',' :: ' ' :: serializeList (.cons k tl))
/-- Comma-separated serialization of JSON object fields. -/
def serializeFields : JsonFields → List Char
  | .nil => []
  | .cons key v .nil => serializeStr key ++ (':' :: ' ' :: serializeJson v)
  | .cons key v (.cons k w tl) =>
    serializeStr key ++ (':' :: ' ' :: serializeJson v)
      ++ (',' :: ' ' :: serializeFields (.cons k w tl))
end

/-- No square bracket occurs in the character list. -/
def noBrB (l : List Char) : Bool :=
  l.all (fun c => !(c == '[') && !(c == ']'))

mutual
/-- No string literal anywhere inside the JSON value contains a square
bracket character (the known blind spot of the character-counting scan). -/
def bracketFree : Json → Bool
  | .null => true
  | .bool _ => true
  | .num _ => true
  | .str s => noBrB s.data
  | .arr xs => bracketFreeList xs
  | .obj fs => bracketFreeFields fs
/-- bracketFree for every element of a JSON array. -/
def bracketFreeList : JsonList → Bool
  | .nil => true
  | .cons j tl => bracketFree j && bracketFreeList tl
/-- bracketFree for every key and value of a JSON object. -/
def bracketFreeFields : JsonFields → Bool
  | .nil => true
  | .cons k v tl => noBrB k.data && bracketFree v && bracketFreeFields tl
end

/-- The character list has total bracket-depth zero and no prefix with
negative depth. -/
def balanced (l : List Char) : Prop :=
  delta l = 0 ∧ ∀ n, 0 ≤ delta (l.take n)

theorem noBrB_cons_iff (c : Char) (l : List Char) :
    noBrB (c :: l) = true ↔ (¬(c = '[') ∧ ¬(c = ']') ∧ noBrB l = true) := by
  simp [noBrB, List.all_cons]
  tauto

theorem noBrB_append (a b : List Char) :
    noBrB (a ++ b) = (noBrB a && noBrB b) := by
  simp [noBrB, List.all_append]

theorem delta_of_noBrB (l : List Char) (h : noBrB l = true) : delta l = 0 := by
  induction l with
  | nil => rfl
  | cons c tl ih =>
    obtain ⟨h1, h2, h3⟩ := (noBrB_cons_iff c tl).mp h
    simp [delta, chDelta, h1, h2, ih h3]

theorem noBrB_take (l : List Char) (n : Nat) (h : noBrB l = true) :
    noBrB (l.take n) = true := by
  unfold noBrB at h ⊢
  rw [List.all_eq_true] at h ⊢
  intro c hc
  exact h c (List.take_subset n l hc)

theorem balanced_of_noBrB (l : List Char) (h : noBrB l = true) : balanced l :=
  ⟨delta_of_noBrB l h, fun n => by simp [delta_of_noBrB (l.take n) (noBrB_take l n h)]⟩

theorem not_mem_of_noBrB (l : List Char) (h : noBrB l = true) : '[' ∉ l := by
  unfold noBrB at h
  rw [List.all_eq_true] at h
  intro hm
  have := h '[' hm
  simp at this

theorem balanced_append (a b : List Char) (ha : balanced a) (hb : balanced b) :
    balanced (a ++ b) := by
  constructor
  · rw [delta_append, ha.1, hb.1]
    omega
  · intro n
    rw [List.take_append_eq_append_take, delta_append]
    have h1 := ha.2 n
    have h2 := hb.2 (n - a.length)
    omega

theorem balanced_wrap (body : List Char) (h : balanced body) :
    balanced ('[' :: (body ++ [']'])) := by
  constructor
  · have h1 : delta ('[' :: (body ++ [']'])) = chDelta '[' + delta (body ++ [']']) := rfl
    rw [h1, delta_append, h.1]
    decide
  · intro n
    cases n with
    | zero => simp [delta]
    | succ m =>
      rw [List.take_succ_cons]
      have h1 : delta ('[' :: ((body ++ [']']).take m)) =
          chDelta '[' + delta ((body ++ [']']).take m) := rfl
      rw [h1]
      have hc : chDelta '[' = 1 := rfl
      rw [hc]
      rw [List.take_append_eq_append_take, delta_append]
      have h2 := h.2 m
      by_cases hm : m ≤ body.length
      · have h0 : m - body.length = 0 := by omega
        rw [h0]
        simp only [List.take_zero, delta]
        omega
      · have hble : body.length ≤ m := by omega
        rw [List.take_of_length_le hble, h.1]
        obtain ⟨k, hk⟩ : ∃ k, m - body.length = k + 1 := ⟨m - body.length - 1, by omega⟩
        rw [hk]
        have h3 : ([']'] : List Char).take (k + 1) = [']'] := by simp
        rw [h3]
        decide

theorem wrap_strict (body : List Char) (h : balanced body) (n : Nat) (h0 : 0 < n)
    (hlt : n < ('[' :: (body ++ [']'])).length) :
    1 ≤ delta (('[' :: (body ++ [']'])).take n) := by
  obtain ⟨m, rfl⟩ : ∃ m, n = m + 1 := ⟨n - 1, by omega⟩
  rw [List.take_succ_cons]
  have h1 : delta ('[' :: ((body ++ [']']).take m)) =
      chDelta '[' + delta ((body ++ [']']).take m) := rfl
  rw [h1]
  have hc : chDelta '[' = 1 := rfl
  rw [hc]
  have hm : m ≤ body.length := by
    simp only [List.length_cons, List.length_append, List.length_nil] at hlt
    omega
  rw [List.take_append_eq_append_take]
  have h0' : m - body.length = 0 := by omega
  rw [h0']
  simp only [List.take_zero, List.append_nil]
  have h2 := h.2 m
  omega

theorem digitChar_ne (n : Nat) : digitChar n ≠ '[' ∧ digitChar n ≠ ']' := by
  unfold digitChar
  split_ifs <;> decide

theorem noBrB_natDigits (n : Nat) : noBrB (natDigits n) = true := by
  induction n using Nat.strong_induction_on with
  | _ n ih =>
    rw [natDigits]
    split_ifs with h
    · rw [noBrB_cons_iff]
      exact ⟨(digitChar_ne n).1, (digitChar_ne n).2, by decide⟩
    · have h1 := ih (n / 10) (Nat.div_lt_self (by omega) (by omega))
      have h2 : noBrB [digitChar (n % 10)] = true := by
        rw [noBrB_cons_iff]
        exact ⟨(digitChar_ne _).1, (digitChar_ne _).2, by decide⟩
      rw [noBrB_append, h1, h2]
      decide

theorem noBrB_intChars (n : Int) : noBrB (intChars n) = true := by
  unfold intChars
  split_ifs with h
  · rw [noBrB_cons_iff]
    exact ⟨by decide, by decide, noBrB_natDigits n.natAbs⟩
  · exact noBrB_natDigits n.natAbs

theorem noBrB_escapeChar (c : Char) (h1 : ¬(c = '[')) (h2 : ¬(c = ']')) :
    noBrB (escapeChar c) = true := by
  unfold escapeChar
  split_ifs
  · decide
  · decide
  · rw [noBrB_cons_iff]
    exact ⟨h1, h2, by decide⟩

theorem noBrB_escapeList (l : List Char) (h : noBrB l = true) :
    noBrB (escapeList l) = true := by
  induction l with
  | nil => decide
  | cons c tl ih =>
    obtain ⟨h1, h2, h3⟩ := (noBrB_cons_iff c tl).mp h
    have e : escapeList (c :: tl) = escapeChar c ++ escapeList tl := rfl
    rw [e, noBrB_append, noBrB_escapeChar c h1 h2, ih h3]
    decide

theorem noBrB_serializeStr (s : String) (h : noBrB s.data = true) :
    noBrB (serializeStr s) = true := by
  unfold serializeStr
  rw [noBrB_cons_iff]
  refine ⟨by decide, by decide, ?_⟩
  rw [noBrB_append, noBrB_escapeList s.data h]
  decide

mutual
theorem serializeJson_balanced : ∀ (j : Json), bracketFree j = true → balanced (serializeJson j)
  | .null, _ => by
    have e : serializeJson Json.null = ['n', 'u', 'l', 'l'] := rfl
    rw [e]
    exact balanced_of_noBrB _ (by decide)
  | .bool true, _ => by
    have e : serializeJson (Json.bool true) = ['t', 'r', 'u', 'e'] := rfl
    rw [e]
    exact balanced_of_noBrB _ (by decide)
  | .bool false, _ => by
    have e : serializeJson (Json.bool false) = ['f', 'a', 'l', 's', 'e'] := rfl
    rw [e]
    exact balanced_of_noBrB _ (by decide)
  | .num n, _ => by
    have e : serializeJson (Json.num n) = intChars n := rfl
    rw [e]
    exact balanced_of_noBrB _ (noBrB_intChars n)
  | .str s, h => by
    have e : serializeJson (Json.str s) = serializeStr s := rfl
    rw [e]
    exact balanced_of_noBrB _ (noBrB_serializeStr s (by simpa [bracketFree] using h))
  | .arr xs, h => by
    have e : serializeJson (Json.arr xs) = '[' :: (serializeList xs ++ [']']) := rfl
    rw [e]
    exact balanced_wrap _ (serializeList_balanced xs (by simpa [bracketFree] using h))
  | .obj fs, h => by
    have e : serializeJson (Json.obj fs) = lbrace :: (serializeFields fs ++ [rbrace]) := rfl
    rw [e]
    have hb := serializeFields_balanced fs (by simpa [bracketFree] using h)
    have h1 : balanced [lbrace] := balanced_of_noBrB _ (by decide)
    have h2 : balanced [rbrace] := balanced_of_noBrB _ (by decide)
    have h3 := balanced_append _ _ h1 (balanced_append _ _ hb h2)
    simpa using h3
theorem serializeList_balanced : ∀ (xs : JsonList), bracketFreeList xs = true → balanced (serializeList xs)
  | .nil, _ => by
    have e : serializeList JsonList.nil = [] := rfl
    rw [e]
    exact balanced_of_noBrB _ (by decide)
  | .cons j .nil, h => by
    have e : serializeList (JsonList.cons j JsonList.nil) = serializeJson j := rfl
    rw [e]
    refine serializeJson_balanced j ?_
    simp only [bracketFreeList, Bool.and_eq_true] at h
    exact h.1
  | .cons j (.cons k tl), h => by
    have e : serializeList (JsonList.cons j (JsonList.cons k tl)) =
        serializeJson j ++ (',' :: ' ' :: serializeList (JsonList.cons k tl)) := rfl
    rw [e]
    simp only [bracketFreeList, Bool.and_eq_true] at h
    have h2 : bracketFreeList (JsonList.cons k tl) = true := by
      simp only [bracketFreeList, Bool.and_eq_true]
      exact h.2
    have hmid := balanced_append [',', ' '] _ (balanced_of_noBrB _ (by decide))
      (serializeList_balanced (JsonList.cons k tl) h2)
    refine balanced_append _ _ (serializeJson_balanced j h.1) ?_
    simpa using hmid
theorem serializeFields_balanced : ∀ (fs : JsonFields), bracketFreeFields fs = true → balanced (serializeFields fs)
  | .nil, _ => by
    have e : serializeFields JsonFields.nil = [] := rfl
    rw [e]
    exact balanced_of_noBrB _ (by decide)
  | .cons key v .nil, h => by
    have e : serializeFields (JsonFields.cons key v JsonFields.nil) =
        serializeStr key ++ (':' :: ' ' :: serializeJson v) := rfl
    rw [e]
    simp only [bracketFreeFields, Bool.and_eq_true] at h
    have hkey := balanced_of_noBrB _ (noBrB_serializeStr key h.1.1)
    have hval := serializeJson_balanced v h.1.2
    have hmid := balanced_append [':', ' '] _ (balanced_of_noBrB _ (by decide)) hval
    refine balanced_append _ _ hkey ?_
    simpa using hmid
  | .cons key v (.cons k w tl), h => by
    have e : serializeFields (JsonFields.cons key v (JsonFields.cons k w tl)) =
        serializeStr key ++ (':' :: ' ' :: serializeJson v)
          ++ (',' :: ' ' :: serializeFields (JsonFields.cons k w tl)) := rfl
    rw [e]
    simp only [bracketFreeFields, Bool.and_eq_true] at h
    have h2 : bracketFreeFields (JsonFields.cons k w tl) = true := by
      simp only [bracketFreeFields, Bool.and_eq_true]
      exact h.2
    have hkey := balanced_of_noBrB _ (noBrB_serializeStr key h.1.1)
    have hval := serializeJson_balanced v h.1.2
    have hmid1 := balanced_append [':', ' '] _ (balanced_of_noBrB _ (by decide)) hval
    have hmid2 := balanced_append [',', ' '] _ (balanced_of_noBrB _ (by decide))
      (serializeFields_balanced (JsonFields.cons k w tl) h2)
    have hleft : balanced (serializeStr key ++ (':' :: ' ' :: serializeJson v)) := by
      refine balanced_append _ _ hkey ?_
      simpa using hmid1
    refine balanced_append _ _ hleft ?_
    simpa using hmid2
end

/-- The JSON array whose single element is the string consisting of one
closing-bracket character; its serialization defeats the character-counting
scan of extract_json_array. -/
def bracketStrArr : Json := Json.arr (.cons (.str "]") .nil)

/-- Claim C2 counterexample: with empty (hence bracket-free) prefix and
suffix and the serialized array containing a closing bracket inside a string
literal, extract_json_array does not return the serialized array. -/
theorem extract_json_array_roundtrip_cex :
    extract_json_array (([] : List Char) ++ serializeJson bracketStrArr ++ [])
      ≠ Except.ok (serializeJson bracketStrArr) := by
  intro h
  rw [List.nil_append, List.append_nil] at h
  have h1 : serializeJson bracketStrArr = ['[', '"', ']', '"', ']'] := rfl
  rw [h1] at h
  have h2 : extract_json_array ['[', '"', ']', '"', ']'] = Except.ok ['[', '"', ']'] := rfl
  rw [h2] at h
  injection h with h3
  exact absurd h3 (by decide)

/-- Claim C2 (amended): for every JSON array whose string literals contain
no square-bracket characters, and every prefix and suffix containing no
square-bracket characters, extract_json_array recovers the serialized array
verbatim from the wrapped text. -/
theorem extract_json_array_roundtrip (xs : JsonList) (pre suf : List Char)
    (hx : bracketFreeList xs = true) (hpre : noBrB pre = true) (hsuf : noBrB suf = true) :
    extract_json_array (pre ++ serializeJson (Json.arr xs) ++ suf)
      = Except.ok (serializeJson (Json.arr xs)) := by
  have hbody := serializeList_balanced xs hx
  set body := serializeList xs with hbdef
  have he : serializeJson (Json.arr xs) = '[' :: (body ++ [']']) := rfl
  rw [he]
  have hassoc : pre ++ ('[' :: (body ++ [']'])) ++ suf
      = pre ++ '[' :: ((body ++ [']']) ++ suf) := by simp
  rw [hassoc]
  have hpre' : '[' ∉ pre := not_mem_of_noBrB pre hpre
  have hfind := findBracket_append pre ((body ++ [']']) ++ suf) hpre'
  set m := (body ++ [']']).length with hm
  have htake : ((body ++ [']']) ++ suf).take m = body ++ [']'] := by
    rw [hm]
    exact List.take_left _ _
  have hz : (1 : Int) + delta (((body ++ [']']) ++ suf).take m) = 0 := by
    rw [htake, delta_append, hbody.1]
    decide
  have hmin : ∀ k, k < m → 0 < k → (1 : Int) + delta (((body ++ [']']) ++ suf).take k) ≠ 0 := by
    intro k hk h0
    have hklen : k ≤ (body ++ [']']).length := by omega
    have htk : ((body ++ [']']) ++ suf).take k = (body ++ [']']).take k := by
      rw [List.take_append_eq_append_take]
      have h1 : k - (body ++ [']']).length = 0 := by omega
      rw [h1]
      simp
    rw [htk]
    have hlen2 : k + 1 < ('[' :: (body ++ [']'])).length := by
      simp only [List.length_cons]
      omega
    have hstrict := wrap_strict body hbody (k + 1) (by omega) hlen2
    rw [List.take_succ_cons] at hstrict
    have h1 : delta ('[' :: ((body ++ [']']).take k)) =
        chDelta '[' + delta ((body ++ [']']).take k) := rfl
    rw [h1] at hstrict
    have hc : chDelta '[' = 1 := rfl
    rw [hc] at hstrict
    omega
  have hmpos : 0 < m := by
    rw [hm]
    simp
  have hmle : m ≤ ((body ++ [']']) ++ suf).length := by
    rw [hm]
    simp
  have hscan := bracketScan_eq_take ((body ++ [']']) ++ suf) 1 m (by omega) hmpos hmle hz hmin
  have hscan2 : bracketScan (body ++ ']' :: suf) 1 = some (body ++ [']']) := by
    have h1 : body ++ ']' :: suf = (body ++ [']']) ++ suf := by simp
    rw [h1, hscan, htake]
  unfold extract_json_array
  rw [hfind]
  simp [bracketScan, hscan2]

/-- A concrete bracket-free JSON array used to instantiate the round-trip
theorem. -/
def plainStrArr : JsonList := JsonList.cons (Json.str "hi") JsonList.nil

/-- Witness for Claim C2 (amended) at a concrete wrapped serialization. -/
theorem extract_json_array_roundtrip_witness :
    extract_json_array (['o', 'k', ' '] ++ serializeJson (Json.arr plainStrArr) ++ [' ', 'z'])
      = Except.ok (serializeJson (Json.arr plainStrArr)) :=
  extract_json_array_roundtrip plainStrArr ['o', 'k', ' '] [' ', 'z']
    (by decide) (by decide) (by decide)

/-- The SSE line marker, the six characters of the Python literal used in
line.startswith and the slice line[6:] (src/app.py lines 158-159). -/
def dataMark : List Char := ['d', 'a', 't', 'a', ':', ' ']

/-- The terminal SSE sentinel payload (src/app.py line 160). -/
def doneMark : List Char := ['[', 'D', 'O', 'N', 'E', ']']

/-- Model of the SSE consumption loop of groq_chat_stream (src/app.py lines
155-169).  A line is a list of characters; decode models the composite of
json.loads and the choices[0].delta.content lookup of the try block: some d
when the payload parses and carries a content string, none when parsing or
the lookup fails.  Empty lines and lines without the data marker are
skipped; the sentinel payload terminates the stream; decoded deltas are
yielded only when non-empty. -/
def groq_chat_stream (decode : List Char → Option String) : List (List Char) → List String
  | [] => []
  | line :: rest =>
    if line = [] then groq_chat_stream decode rest
    else if dataMark.isPrefixOf line then
      if line.drop 6 = doneMark then []
      else
        match decode (line.drop 6) with
        | some d => if d = "" then groq_chat_stream decode rest else d :: groq_chat_stream decode rest
        | none => groq_chat_stream decode rest
    else groq_chat_stream decode rest

/-- A line whose payload is the terminal sentinel. -/
def stopLine (line : List Char) : Bool :=
  dataMark.isPrefixOf line && decide (line.drop 6 = doneMark)

/-- The delta produced by one data line: the decoded content if present and
non-empty. -/
def lineDelta (decode : List Char → Option String) (line : List Char) : Option String :=
  match decode (line.drop 6) with
  | some d => if d = "" then none else some d
  | none => none

/-- Declarative statement of the spec for the streaming loop: the deltas
are the non-empty decoded contents of the data-marked lines, in order, up
to and excluding the first sentinel line. -/
def groq_chat_stream_spec (decode : List Char → Option String) (lines : List (List Char)) : List String :=
  ((lines.takeWhile (fun line => !(stopLine line))).filter
      (fun line => dataMark.isPrefixOf line)).filterMap (lineDelta decode)

/-- Claim C4: the streaming loop produces exactly the in-order non-empty
decoded contents of the data-marked lines strictly before the first
sentinel line; lines that fail to decode are skipped without error. -/
theorem groq_chat_stream_eq_spec (decode : List Char → Option String)
    (lines : List (List Char)) :
    groq_chat_stream decode lines = groq_chat_stream_spec decode lines := by
  induction lines with
  | nil => rfl
  | cons line rest ih =>
    by_cases hstop : stopLine line = true
    · have hstop2 := hstop
      unfold stopLine at hstop2
      rw [Bool.and_eq_true] at hstop2
      have hpre : dataMark.isPrefixOf line = true := hstop2.1
      have hdone : line.drop 6 = doneMark := by simpa using hstop2.2
      have hne : ¬(line = []) := by
        intro hl
        subst hl
        simp [List.isPrefixOf, dataMark] at hpre
      unfold groq_chat_stream groq_chat_stream_spec
      rw [List.takeWhile_cons]
      simp [hne, hpre, hdone, hstop]
    · unfold groq_chat_stream groq_chat_stream_spec
      rw [List.takeWhile_cons]
      by_cases hl : line = []
      · subst hl
        have hpre : dataMark.isPrefixOf ([] : List Char) = false := by decide
        simp [hstop, hpre]
        exact ih
      · by_cases hpre : dataMark.isPrefixOf line = true
        · have hdone : ¬(line.drop 6 = doneMark) := by
            intro hd
            apply hstop
            unfold stopLine
            simp [hpre, hd]
          simp [hl, hpre, hdone, hstop]
          cases hdec : decode (line.drop 6) with
          | none =>
            simp [lineDelta, hdec]
            exact ih
          | some d =>
            by_cases hd0 : d = ""
            · simp [lineDelta, hdec, hd0]
              exact ih
            · simp [lineDelta, hdec, hd0]
              exact ih
        · have hpre' : dataMark.isPrefixOf line = false := by
            rwa [Bool.not_eq_true] at hpre
          simp [hl, hpre', hstop]
          exact ih

/-- Failure modes of the completion client (src/app.py lines 85-90 and
182-186): a non-success HTTP status raised by raise_for_status, or a
response body lacking the expected choices[0].message.content path. -/
inductive CompErr where
  | httpError : CompErr
  | shapeError : CompErr

/-- The underlying error wrapped by the recommendation/events parse failure
(src/app.py lines 99-102 and 133-135): either the second json.loads call on
the extracted substring failed, or extract_json_array itself failed. -/
inductive RecFailure where
  | decodeFailed : RecFailure
  | extractFailed (e : ExtractErr) : RecFailure

/-- Result of the robust parse block of get_travel_recommendations
(src/app.py lines 92-102): the parsed value or the wrapped failure, plus
the raw text recorded in session state under last_recs_raw on failure. -/
structure RecsOutcome where
  result : Except RecFailure Json
  lastRecsRaw : Option (List Char)

/-- Model of the parse block of get_travel_recommendations (src/app.py
lines 92-102).  parse models json.loads restricted to this application:
some v when the text parses as JSON, none when json.loads raises.  The
block first tries a direct parse, then falls back to extract_json_array
followed by a second parse; on total failure the raw text is stored in
session state and the wrapped failure is raised. -/
def parseRecsText (parse : List Char → Option Json) (text : List Char) : RecsOutcome :=
  match parse text with
  | some v => ⟨.ok v, none⟩
  | none =>
    match extract_json_array text with
    | .ok arr =>
      match parse arr with
      | some v => ⟨.ok v, none⟩
      | none => ⟨.error .decodeFailed, some text⟩
    | .error e => ⟨.error (.extractFailed e), some text⟩

/-- Model of get_travel_recommendations (src/app.py lines 64-102) after the
prompt is built: the completion client either fails (and the failure
propagates, there is no try block around the request) or produces the
assistant text, which is fed to the robust parse block. -/
def get_travel_recommendations (completeRes : Except CompErr (List Char))
    (parse : List Char → Option Json) : Except CompErr RecsOutcome :=
  match completeRes with
  | .error e => .error e
  | .ok text => .ok (parseRecsText parse text)

/-- Result of fetch_global_events (src/app.py lines 104-137): the events
value (the parsed JSON, or an empty array after a swallowed failure) plus
the raw text recorded in session state under last_fetch_raw on parse
failure. -/
structure FetchOutcome where
  result : Json
  lastFetchRaw : Option (List Char)

/-- Model of fetch_global_events (src/app.py lines 104-137): the outer try
swallows every failure of the completion call and of parsing and returns an
empty list; the inner parse block mirrors get_travel_recommendations and
stores the raw text in session state under last_fetch_raw before raising
into the outer handler. -/
def fetch_global_events (completeRes : Except CompErr (List Char))
    (parse : List Char → Option Json) : FetchOutcome :=
  match completeRes with
  | .error _ => ⟨.arr .nil, none⟩
  | .ok text =>
    match parse text with
    | some v => ⟨v, none⟩
    | none =>
      match extract_json_array text with
      | .ok arr =>
        match parse arr with
        | some v => ⟨v, none⟩
        | none => ⟨.arr .nil, some text⟩
      | .error _ => ⟨.arr .nil, some text⟩

/-- Whether a JSON value is an object. -/
def jsonIsObj : Json → Bool
  | .obj _ => true
  | _ => false

/-- Whether a JSON array contains at least one element that is not an
object. -/
def hasNonObjElem : JsonList → Bool
  | .nil => false
  | .cons j tl => !(jsonIsObj j) || hasNonObjElem tl

/-- A chat message: a role tag and its content (src/app.py session chat
entries). -/
structure Msg where
  role : String
  content : String

/-- The system persona message prepended at request time by the chat paths
(src/app.py lines 326-328 and 408). -/
def personaMsg : Msg :=
  ⟨"system", "You are a concise, reliable travel assistant. Prefer ranges and practical steps."⟩

/-- Model of the suggestion-button handler (src/app.py lines 402-413, the
Explore Darjeeling branch; the other two buttons are identical): append the
user message to the session history, build the request as the persona
message followed by the whole history, call send_chat_completion, and on
success append the assistant reply; on failure the history keeps only the
appended user message and the error is reported.  Returns the new history
and the call outcome. -/
def sendAndAppend (complete : List Msg → Except CompErr String)
    (chat : List Msg) (text : String) : List Msg × Except CompErr String :=
  let chat1 := chat ++ [⟨"user", text⟩]
  match complete (personaMsg :: chat1) with
  | .ok reply => (chat1 ++ [⟨"assistant", reply⟩], .ok reply)
  | .error e => (chat1, .error e)

/-- Claim C5: the recommendation parse path first attempts a direct parse,
falls back to extract_json_array plus a second parse, returns the parsed
value if either succeeds (without touching session state), and on total
failure raises an error wrapping the underlying failure while retaining the
raw completion text in session state. -/
theorem parseRecsText_characterization (parse : List Char → Option Json) (text : List Char) :
    (∀ v, parse text = some v → parseRecsText parse text = ⟨.ok v, none⟩)
    ∧ (parse text = none → ∀ arr v, extract_json_array text = .ok arr →
        parse arr = some v → parseRecsText parse text = ⟨.ok v, none⟩)
    ∧ (parse text = none → ∀ arr, extract_json_array text = .ok arr →
        parse arr = none → parseRecsText parse text = ⟨.error .decodeFailed, some text⟩)
    ∧ (parse text = none → ∀ e, extract_json_array text = .error e →
        parseRecsText parse text = ⟨.error (.extractFailed e), some text⟩) := by
  refine ⟨?_, ?_, ?_, ?_⟩
  · intro v hv
    simp only [parseRecsText, hv]
  · intro h0 arr v harr hv
    simp only [parseRecsText, h0, harr, hv]
  · intro h0 arr harr hv
    simp only [parseRecsText, h0, harr, hv]
  · intro h0 e he
    simp only [parseRecsText, h0, he]

/-- A concrete decoder for witnesses: recognises the two-character text of
an empty JSON array and nothing else. -/
def parseEmptyArrOnly : List Char → Option Json :=
  fun t => if t = ['[', ']'] then some (Json.arr .nil) else none

/-- Witness for Claim C5: on a noisy-wrapped empty array the direct parse
fails, the extractor recovers the array text, and the fallback parse
succeeds. -/
theorem parseRecsText_characterization_witness :
    parseRecsText parseEmptyArrOnly ['h', 'i', ' ', '[', ']', ' ', 'o', 'k']
      = ⟨.ok (Json.arr .nil), none⟩ :=
  (parseRecsText_characterization parseEmptyArrOnly
      ['h', 'i', ' ', '[', ']', ' ', 'o', 'k']).2.1
    rfl ['[', ']'] (Json.arr .nil) rfl rfl

/-- Claim C6: every failure mode of fetch_global_events yields the empty
array as its result: a completion failure (HTTP or shape), and a completion
text on which both the direct parse and the extractor-assisted parse fail.
The model is a total function into FetchOutcome, so no error can propagate
to the caller. -/
theorem fetch_global_events_swallows_failures (parse : List Char → Option Json) :
    (∀ e, (fetch_global_events (.error e) parse).result = .arr .nil)
    ∧ (∀ text, parse text = none →
        (∀ arr, extract_json_array text = .ok arr → parse arr = none) →
        (fetch_global_events (.ok text) parse).result = .arr .nil) := by
  constructor
  · intro e
    rfl
  · intro text h0 hfail
    simp only [fetch_global_events, h0]
    cases hx : extract_json_array text with
    | ok arr => simp only [hx, hfail arr hx]
    | error e => simp only [hx]

/-- Witness for Claim C6: a mocked HTTP failure of the completion call
yields the empty array. -/
theorem fetch_global_events_swallows_failures_witness :
    (fetch_global_events (.error .httpError) parseEmptyArrOnly).result = .arr .nil :=
  (fetch_global_events_swallows_failures parseEmptyArrOnly).1 .httpError

/-- A concrete decoder recognising only the serialized array whose single
element is a bare string, used to exhibit the missing element validation. -/
def parseStrElemOnly : List Char → Option Json :=
  fun t =>
    if t = ['[', '"', 'x', '"', ']'] then some (Json.arr (.cons (.str "x") .nil)) else none

/-- Claim C7 counterexample: a response parsing to an array with a
non-object element is returned successfully by the recommendation parse
path; the call is not a terminal parse failure. -/
theorem parseRecsText_accepts_nonobject_cex :
    (parseRecsText parseStrElemOnly ['[', '"', 'x', '"', ']']).result
        = .ok (Json.arr (.cons (.str "x") .nil))
    ∧ hasNonObjElem (.cons (.str "x") .nil) = true := by
  constructor
  · rfl
  · rfl

/-- Claim C7 (amended): the parse paths perform no per-element validation:
whenever the response text parses as JSON, both get_travel_recommendations
and fetch_global_events return the parsed value unchanged, even when it is
an array containing non-object elements; such elements are neither rejected
nor skipped at parse time (shape errors can only surface later, in the view
layer). -/
theorem parse_paths_skip_no_elements (parse : List Char → Option Json)
    (text : List Char) (j : Json) (h : parse text = some j) :
    (parseRecsText parse text).result = .ok j
    ∧ (fetch_global_events (.ok text) parse).result = j := by
  constructor
  · simp only [parseRecsText, h]
  · simp only [fetch_global_events, h]

/-- Witness for Claim C7 (amended) at the concrete non-object-element
array. -/
theorem parse_paths_skip_no_elements_witness :
    (parseRecsText parseStrElemOnly ['[', '"', 'x', '"', ']']).result
        = .ok (Json.arr (.cons (.str "x") .nil))
    ∧ (fetch_global_events (.ok ['[', '"', 'x', '"', ']']) parseStrElemOnly).result
        = Json.arr (.cons (.str "x") .nil) :=
  parse_paths_skip_no_elements parseStrElemOnly ['[', '"', 'x', '"', ']']
    (Json.arr (.cons (.str "x") .nil)) rfl

/-- Claim C8: when the completion call of the suggestion-button handler
succeeds, the new session history is the prior history followed by the user
message and then the assistant reply, in that order; the prepended persona
message is not stored in the history. -/
theorem sendAndAppend_success (complete : List Msg → Except CompErr String)
    (chat : List Msg) (text reply : String)
    (h : complete (personaMsg :: (chat ++ [⟨"user", text⟩])) = .ok reply) :
    (sendAndAppend complete chat text).1
        = chat ++ [⟨"user", text⟩, ⟨"assistant", reply⟩]
    ∧ (personaMsg ∉ chat → personaMsg ∉ (sendAndAppend complete chat text).1) := by
  have e : sendAndAppend complete chat text
      = (chat ++ [⟨"user", text⟩, ⟨"assistant", reply⟩], .ok reply) := by
    simp [sendAndAppend, h]
  constructor
  · rw [e]
  · intro hni
    rw [e]
    intro hmem
    rcases List.mem_append.mp hmem with hmem1 | hmem2
    · exact hni hmem1
    · rcases List.mem_cons.mp hmem2 with hmem3 | hmem4
      · have : "system" = "user" := congrArg Msg.role hmem3
        simp at this
      · rcases List.mem_cons.mp hmem4 with hmem5 | hmem6
        · have : "system" = "assistant" := congrArg Msg.role hmem5
          simp at this
        · simp at hmem6

/-- A mocked completion client that always replies with a fixed greeting. -/
def helloComplete : List Msg → Except CompErr String :=
  fun _ => .ok "Hello!"

/-- Witness for Claim C8: sending a greeting against a mocked reply leaves
exactly the user and assistant messages, in order. -/
theorem sendAndAppend_success_witness :
    (sendAndAppend helloComplete [] "Hi").1
        = [⟨"user", "Hi"⟩, ⟨"assistant", "Hello!"⟩]
    ∧ (personaMsg ∉ ([] : List Msg) → personaMsg ∉ (sendAndAppend helloComplete [] "Hi").1) := by
  have h := sendAndAppend_success helloComplete [] "Hi" "Hello!" rfl
  simpa using h

/-- Claim C9: when the completion call of the suggestion-button handler
fails, the error is reported to the caller and the new session history is
the prior history plus the already-appended user message: no rollback,
and no assistant message. -/
theorem sendAndAppend_failure (complete : List Msg → Except CompErr String)
    (chat : List Msg) (text : String) (e : CompErr)
    (h : complete (personaMsg :: (chat ++ [⟨"user", text⟩])) = .error e) :
    sendAndAppend complete chat text = (chat ++ [⟨"user", text⟩], .error e) := by
  simp [sendAndAppend, h]

/-- A mocked completion client that always fails with an HTTP error. -/
def failingComplete : List Msg → Except CompErr String :=
  fun _ => .error .httpError

/-- Witness for Claim C9: a failing completion leaves exactly the user
message in the history and reports the error. -/
theorem sendAndAppend_failure_witness :
    sendAndAppend failingComplete [] "Hi" = ([⟨"user", "Hi"⟩], .error .httpError) := by
  have h := sendAndAppend_failure failingComplete [] "Hi" .httpError rfl
  simpa using h

/-- Claim C10: when the completion text fails both the direct parse and the
extractor-assisted parse, fetch_global_events records the raw text in
session state under last_fetch_raw and still returns the empty array
instead of raising. -/
theorem fetch_global_events_records_raw (parse : List Char → Option Json)
    (text : List Char) (h0 : parse text = none)
    (hfail : ∀ arr, extract_json_array text = .ok arr → parse arr = none) :
    fetch_global_events (.ok text) parse = ⟨.arr .nil, some text⟩ := by
  simp only [fetch_global_events, h0]
  cases hx : extract_json_array text with
  | ok arr => simp only [hx, hfail arr hx]
  | error e => simp only [hx]

/-- A decoder that never parses, mocking json.loads failing on every text
involved. -/
def parseNothing : List Char → Option Json := fun _ => none

/-- Witness for Claim C10: a wrapped array text that the mocked decoder
rejects both directly and after extraction leaves the raw text in session
state and yields the empty array. -/
theorem fetch_global_events_records_raw_witness :
    fetch_global_events (.ok ['x', '[', 'a', ']', 'y']) parseNothing
      = ⟨.arr .nil, some ['x', '[', 'a', ']', 'y']⟩ :=
  fetch_global_events_records_raw parseNothing ['x', '[', 'a', ']', 'y'] rfl
    (fun _ _ => rfl)

end TravelSpec
